import Mathlib

/-!
# Verification of the batch file-renaming utility (`rename_files_swapped`)

Shallow embedding of `src/main.rs`: strings are modelled as `List Char`,
the filesystem as an inductive tree of entries, fallible filesystem calls
carry explicit failure flags, and the traversal returns the log of
performed renames together with `Except Unit Nat` (the rename count or an
error), mirroring `Result<u64, std::io::Error>`.
-/

set_option autoImplicit false

namespace BatchRenamer

/-! ## Rust string primitives on `List Char` -/

/-- `stripLead p s` returns `some rest` when `p` is an initial segment of
`s` (with `s = p ++ rest`), `none` otherwise.  This is the one-position
pattern-match test used by Rust's string searcher. -/
def stripLead : List Char → List Char → Option (List Char)
  | [], s => some s
  | _ :: _, [] => none
  | a :: p, b :: s => if a = b then stripLead p s else none

/-- Worker for leftmost, non-overlapping splitting by a non-empty pattern
`p`, as Rust's `str::split` does for string patterns.  `acc` holds the
(reversed) characters of the piece currently being built; `fuel` bounds
the recursion (one unit per consumed character, so `s.length + 1` always
suffices for non-empty `p`). -/
def splitGo (p : List Char) : Nat → List Char → List Char → List (List Char)
  | 0, s, acc => [acc.reverse ++ s]
  | _ + 1, [], acc => [acc.reverse]
  | fuel + 1, b :: s, acc =>
    match stripLead p (b :: s) with
    | some rest => acc.reverse :: splitGo p fuel rest []
    | none => splitGo p fuel s (b :: acc)

/-- Rust `str::split` with a literal string pattern: leftmost-first,
non-overlapping matches.  The empty pattern matches at every char
boundary (Rust: `"abc".split("") == ["", "a", "b", "c", ""]`). -/
def splitOnL (s p : List Char) : List (List Char) :=
  if p.isEmpty then [[]] ++ s.map (fun c => [c]) ++ [[]]
  else splitGo p (s.length + 1) s []

/-- Rust `str::rsplit` with a literal string pattern: rightmost-first,
non-overlapping matches, pieces yielded right-to-left.  Rightmost-first
matching on `s` is exactly leftmost-first matching on the reversed
string with the reversed pattern, with every piece reversed back. -/
def rsplitL (s p : List Char) : List (List Char) :=
  (splitOnL s.reverse p.reverse).map List.reverse

/-- Rust `char::is_whitespace`: the Unicode `White_Space` property. -/
def isRustWhitespace (c : Char) : Bool :=
  c = '\u0009' || c = '\u000A' || c = '\u000B' || c = '\u000C' || c = '\u000D' ||
  c = ' ' || c = '\u0085' || c = '\u00A0' || c = '\u1680' ||
  ('\u2000' ≤ c && c ≤ '\u200A') ||
  c = '\u2028' || c = '\u2029' || c = '\u202F' || c = '\u205F' || c = '\u3000'

/-- Rust `str::trim`: drop leading and trailing whitespace. -/
def trimL (l : List Char) : List Char :=
  ((l.dropWhile isRustWhitespace).reverse.dropWhile isRustWhitespace).reverse

/-- Rust `str::replace` for a (possibly empty) literal pattern: replace
every non-overlapping occurrence, scanning left to right — equivalently,
split by the pattern and interpose the replacement. -/
def replaceL (s p r : List Char) : List Char :=
  List.intercalate r (splitOnL s p)

/-! ## `Path::file_stem` / `Path::extension` -/

/-- Rust's `Path` file-name splitting (`split_file_at_dot`): the special
file name `".."` has no extension; otherwise the name is split at the
last `'.'`, except that a dot in the very first position does not begin
an extension.  Returns `(file_stem, extension?)`. -/
def splitFileAtDot (name : List Char) : List Char × Option (List Char) :=
  if name = ['.', '.'] then (name, none)
  else
    let r := name.reverse
    match r.dropWhile (· ≠ '.') with
    | [] => (name, none)
    | [_] => (name, none)
    | _ :: rstem => (rstem.reverse, some (r.takeWhile (· ≠ '.')).reverse)

/-! ## The per-file rename transform (`main.rs` lines 73‑90) -/

/-- The base-name transform of `rename_files_swapped`: split the stem by
`old_sep` from the right, trim each piece, and when exactly two pieces
result, join them (in `rsplit` order, i.e. swapped) with
`padding ++ new_sep ++ padding`.  `none` means the file is skipped. -/
def newFileName (old_sep new_sep padding stem : List Char) : Option (List Char) :=
  let filenames := (rsplitL stem old_sep).map trimL
  if filenames.length ≠ 2 then none
  else
    let separator := padding ++ new_sep ++ padding
    some (List.intercalate separator filenames)

/-- `matchAtB p s i`: the pattern `p` occurs in `s` starting at index `i`. -/
def matchAtB (p s : List Char) (i : Nat) : Bool :=
  (stripLead p (s.drop i)).isSome

/-- The configuration handed to `rename_files_swapped` (its parameters
after the directory). -/
structure Config where
  extensions : List (List Char)
  old_sep : List Char
  new_sep : List Char
  padding : List Char
  recursive : Bool

/-- A filesystem entry as seen by the traversal.  Fallibility of the
filesystem calls is made explicit: `renameFails` says `fs::rename` on
this file would return an error, `readFails` says `fs::read_dir` on this
directory would. -/
inductive Entry where
  | file (name : List Char) (renameFails : Bool) : Entry
  | dir (readFails : Bool) (entries : List Entry) : Entry

/-- The log of performed renames: `(old name, new name)` pairs in order. -/
abbrev RenameLog := List (List Char × List Char)

/-- The outcome of (part of) a traversal: the renames actually performed
on disk, and either the returned count or the propagated error.  Renames
already in the log stay there on error — the filesystem is not rolled
back. -/
abbrev TraceResult := RenameLog × Except Unit Nat

mutual

/-- Process a single entry of the loop body of `rename_files_swapped`:
recurse into directories (only when `recursive`), filter files by
extension, apply `newFileName` to the stem, and rename. -/
def runEntry (cfg : Config) : Entry → TraceResult
  | .file name renameFails =>
    match splitFileAtDot name with
    | (_, none) => ([], .ok 0)
    | (stem, some ext) =>
      if cfg.extensions.contains ext then
        match newFileName cfg.old_sep cfg.new_sep cfg.padding stem with
        | none => ([], .ok 0)
        | some nb =>
          if renameFails then ([], .error ())
          else ([(name, nb ++ '.' :: ext)], .ok 1)
      else ([], .ok 0)
  | .dir readFails entries =>
    if cfg.recursive then
      if readFails then ([], .error ())
      else runEntries cfg entries
    else ([], .ok 0)

/-- The `for path in paths` loop of `rename_files_swapped`: entries are
processed left to right; the first error stops the loop and propagates,
keeping the renames performed so far. -/
def runEntries (cfg : Config) : List Entry → TraceResult
  | [] => ([], .ok 0)
  | e :: rest =>
    match runEntry cfg e with
    | (log, .error er) => (log, .error er)
    | (log, .ok n) =>
      match runEntries cfg rest with
      | (log2, .ok m) => (log ++ log2, .ok (n + m))
      | (log2, .error er) => (log ++ log2, .error er)

end

/-- `rename_files_swapped` on a directory: `fs::read_dir` first (an
unreadable directory fails the whole call before any entry is
processed), then the entry loop. -/
def rename_files_swapped (cfg : Config) (readFails : Bool)
    (entries : List Entry) : TraceResult :=
  if readFails then ([], .error ()) else runEntries cfg entries

/-! ## Separator handling in `main` (`main.rs` lines 117‑120) -/

/-- `main`'s computation of the two separators from the parsed
`--separator` values: the split separator is `separator[0]` with every
backslash removed (`separator[0].replace("\\", "")`); the join separator
is `separator[1]` verbatim when present, else the unescaped split
separator.  `none` models the index panic on an empty vector (which the
CLI's default value prevents). -/
def computeSeps : List (List Char) → Option (List Char × List Char)
  | [] => none
  | s0 :: rest =>
    let old_sep := replaceL s0 ['\\'] []
    some (old_sep, match rest with | [] => old_sep | s1 :: _ => s1)

/-- `true` exactly on non-directory entries. -/
def isFileEntry : Entry → Bool
  | .file _ _ => true
  | .dir _ _ => false

/-! ## Concrete configurations used by witnesses -/

/-- The CLI's default configuration: extensions `mp3`, split `-`, join
`-`, no padding, non-recursive. -/
def mp3Cfg : Config := ⟨["mp3".toList], ['-'], ['-'], [], false⟩

/-- The same configuration with `--recursive`. -/
def mp3CfgR : Config := ⟨["mp3".toList], ['-'], ['-'], [], true⟩

/-! ## Helper lemmas about the string primitives -/

theorem stripLead_eq_some_iff {p : List Char} :
    ∀ {s r : List Char}, stripLead p s = some r ↔ s = p ++ r := by
  induction p with
  | nil => intro s r; simp [stripLead]
  | cons a p ih =>
    intro s r
    cases s with
    | nil => simp [stripLead]
    | cons b s =>
      by_cases hab : a = b
      · subst hab; simp [stripLead, ih]
      · simp [stripLead, hab, Ne.symm hab]

theorem stripLead_append_self (p t : List Char) : stripLead p (p ++ t) = some t :=
  stripLead_eq_some_iff.mpr rfl

theorem stripLead_single {c b : Char} {s : List Char} :
    stripLead [c] (b :: s) = if c = b then some s else none := by
  simp [stripLead]

theorem stripLead_length {p : List Char} :
    ∀ {s r : List Char}, stripLead p s = some r → r.length + p.length = s.length := by
  intro s r h
  rw [stripLead_eq_some_iff.mp h]
  simp [Nat.add_comm]

/-- With enough fuel (strictly more than the number of remaining
characters), the exact amount of fuel is irrelevant to `splitGo`. -/
theorem splitGo_fuel {p : List Char} (hp : p ≠ []) :
    ∀ (f₁ : Nat) (s : List Char) (f₂ : Nat) (acc : List Char),
      s.length < f₁ → s.length < f₂ →
      splitGo p f₁ s acc = splitGo p f₂ s acc := by
  intro f₁
  induction f₁ with
  | zero => intro s f₂ acc h₁ _; omega
  | succ g₁ ih =>
    intro s f₂ acc h₁ h₂
    cases s with
    | nil =>
      cases f₂ with
      | zero => omega
      | succ g₂ => rfl
    | cons b s =>
      cases f₂ with
      | zero => omega
      | succ g₂ =>
        simp only [splitGo]
        simp only [List.length_cons] at h₁ h₂
        cases hsl : stripLead p (b :: s) with
        | none =>
          exact ih s g₂ (b :: acc) (by omega) (by omega)
        | some rest =>
          have hlen : rest.length + p.length = s.length + 1 := by
            simpa using stripLead_length hsl
          have hplen : 1 ≤ p.length := List.length_pos.mpr hp
          exact congrArg (acc.reverse :: ·) (ih rest g₂ [] (by omega) (by omega))

theorem splitGo_cons_none {p : List Char} {b : Char} {s acc : List Char} {fuel : Nat}
    (h : stripLead p (b :: s) = none) :
    splitGo p (fuel + 1) (b :: s) acc = splitGo p fuel s (b :: acc) := by
  simp [splitGo, h]

theorem splitGo_cons_some {p : List Char} {b : Char} {s acc rest : List Char} {fuel : Nat}
    (h : stripLead p (b :: s) = some rest) :
    splitGo p (fuel + 1) (b :: s) acc = acc.reverse :: splitGo p fuel rest [] := by
  simp [splitGo, h]


theorem matchAtB_iff {p : List Char} (hp : p ≠ []) {s : List Char} {i : Nat} :
    matchAtB p s i = true ↔ ∃ u t, s = u ++ p ++ t ∧ u.length = i := by
  constructor
  · intro h
    rw [matchAtB, Option.isSome_iff_exists] at h
    obtain ⟨t, ht⟩ := h
    have hdrop := stripLead_eq_some_iff.mp ht
    by_cases hi : i ≤ s.length
    · refine ⟨s.take i, t, ?_, by simp [hi]⟩
      conv_lhs => rw [← List.take_append_drop i s]
      rw [hdrop, List.append_assoc]
    · exfalso
      have : s.drop i = [] := List.drop_eq_nil_of_le (by omega)
      rw [this] at hdrop
      exact hp (List.append_eq_nil.mp hdrop.symm).1
  · rintro ⟨u, t, rfl, rfl⟩
    rw [matchAtB, List.append_assoc, List.drop_left, stripLead_append_self]
    rfl

theorem matchAtB_rev_iff {p : List Char} (hp : p ≠ []) {s : List Char} {j : Nat} :
    matchAtB p.reverse s.reverse j = true ↔ ∃ u t, s = u ++ p ++ t ∧ t.length = j := by
  rw [matchAtB_iff (by simpa using hp)]
  constructor
  · rintro ⟨u', t', hs, rfl⟩
    refine ⟨t'.reverse, u'.reverse, ?_, by simp⟩
    have := congrArg List.reverse hs
    simpa [List.append_assoc] using this
  · rintro ⟨u, t, rfl, rfl⟩
    exact ⟨t.reverse, u.reverse, by simp, by simp⟩

theorem matchAtB_cons_succ {p : List Char} {b : Char} {s : List Char} {i : Nat} :
    matchAtB p (b :: s) (i + 1) = matchAtB p s i := by
  simp [matchAtB]

/-- If the pattern occurs nowhere in `s`, the splitter returns the single
piece `s` (prefixed by the accumulated characters). -/
theorem splitGo_nomatch {p : List Char} (hp : p ≠ []) :
    ∀ (s : List Char) (fuel : Nat) (acc : List Char),
      s.length < fuel → (∀ i < s.length, matchAtB p s i = false) →
      splitGo p fuel s acc = [acc.reverse ++ s] := by
  intro s
  induction s with
  | nil =>
    intro fuel acc h _
    cases fuel with
    | zero => omega
    | succ g => simp [splitGo]
  | cons b s ih =>
    intro fuel acc h hm
    cases fuel with
    | zero => omega
    | succ g =>
      have h0 : stripLead p (b :: s) = none := by
        cases hsl : stripLead p (b :: s) with
        | none => rfl
        | some r =>
          have := hm 0 (by simp)
          simp [matchAtB, hsl] at this
      have hm' : ∀ i < s.length, matchAtB p s i = false := by
        intro i hi
        have := hm (i + 1) (by simp; omega)
        rwa [matchAtB_cons_succ] at this
      simp only [splitGo, h0]
      exact (ih g (b :: acc) (by simp at h; omega) hm').trans (by simp)

/-- If the first occurrence of the pattern `p` in `X ++ p ++ Y` is the
explicit one (no occurrence starts inside `X`), the splitter cuts off the
piece `X` and continues on `Y`. -/
theorem splitGo_split {p : List Char} (hp : p ≠ []) :
    ∀ (X Y : List Char) (fuel : Nat) (acc : List Char),
      (X ++ p ++ Y).length < fuel →
      (∀ i < X.length, matchAtB p (X ++ p ++ Y) i = false) →
      splitGo p fuel (X ++ p ++ Y) acc = (acc.reverse ++ X) :: splitOnL Y p := by
  obtain ⟨q, p', rfl⟩ := List.exists_cons_of_ne_nil hp
  intro X
  induction X with
  | nil =>
    intro Y fuel acc h _
    cases fuel with
    | zero => simp at h
    | succ g =>
      have harg : ([] : List Char) ++ (q :: p') ++ Y = q :: (p' ++ Y) := by simp
      have hsl : stripLead (q :: p') (q :: (p' ++ Y)) = some Y :=
        stripLead_append_self (q :: p') Y
      rw [harg, splitGo_cons_some hsl]
      rw [splitGo_fuel hp g Y (Y.length + 1) [] (by simp at h; omega) (Nat.lt_succ_self _)]
      rw [splitOnL, if_neg (by simp)]
      simp
  | cons x X ih =>
    intro Y fuel acc h hm
    cases fuel with
    | zero => simp at h
    | succ g =>
      have h0 : stripLead (q :: p') (x :: (X ++ (q :: p') ++ Y)) = none := by
        cases hsl : stripLead (q :: p') (x :: (X ++ (q :: p') ++ Y)) with
        | none => rfl
        | some r =>
          have := hm 0 (by simp)
          simp only [matchAtB, List.drop_zero, List.cons_append] at this
          rw [hsl] at this
          simp at this
      have hm' : ∀ i < X.length, matchAtB (q :: p') (X ++ (q :: p') ++ Y) i = false := by
        intro i hi
        have := hm (i + 1) (by simp; omega)
        rw [List.cons_append, List.cons_append, matchAtB_cons_succ] at this
        simpa using this
      have harg : (x :: X) ++ (q :: p') ++ Y = x :: (X ++ (q :: p') ++ Y) := by simp
      rw [harg, splitGo_cons_none h0]
      refine (ih Y g (x :: acc) (by simp at h ⊢; omega) hm').trans ?_
      simp

theorem splitOnL_split {p : List Char} (hp : p ≠ []) {X Y : List Char}
    (hm : ∀ i < X.length, matchAtB p (X ++ p ++ Y) i = false) :
    splitOnL (X ++ p ++ Y) p = X :: splitOnL Y p := by
  rw [splitOnL, if_neg (by simpa using hp)]
  exact (splitGo_split hp X Y _ [] (Nat.lt_succ_self _) hm).trans (by simp)

theorem splitOnL_nomatch {p : List Char} (hp : p ≠ []) {s : List Char}
    (hm : ∀ i < s.length, matchAtB p s i = false) : splitOnL s p = [s] := by
  rw [splitOnL, if_neg (by simpa using hp)]
  exact (splitGo_nomatch hp s _ [] (Nat.lt_succ_self _) hm).trans (by simp)

/-- `rsplit` on a string with exactly one occurrence of the (non-empty)
separator yields exactly the two surrounding pieces, tail first. -/
theorem rsplitL_two {p : List Char} (hp : p ≠ []) {A B : List Char}
    (hm : ∀ i < (A ++ p ++ B).length, i ≠ A.length → matchAtB p (A ++ p ++ B) i = false) :
    rsplitL (A ++ p ++ B) p = [B, A] := by
  have hrev : (A ++ p ++ B).reverse = B.reverse ++ p.reverse ++ A.reverse := by simp
  have hmB : ∀ i < B.reverse.length,
      matchAtB p.reverse (B.reverse ++ p.reverse ++ A.reverse) i = false := by
    intro i hi
    cases hx : matchAtB p.reverse (B.reverse ++ p.reverse ++ A.reverse) i with
    | false => rfl
    | true =>
      exfalso
      rw [← hrev, matchAtB_rev_iff hp] at hx
      obtain ⟨u, t, hs, hlen⟩ := hx
      have hslen := congrArg List.length hs
      have hppos := List.length_pos.mpr hp
      simp only [List.length_append] at hslen
      simp only [List.length_reverse] at hi
      have hocc : matchAtB p (A ++ p ++ B) u.length = true :=
        (matchAtB_iff hp).mpr ⟨u, t, hs, rfl⟩
      have := hm u.length (by simp; omega) (by omega)
      rw [this] at hocc
      exact Bool.false_ne_true hocc
  have hmA : ∀ i < A.reverse.length, matchAtB p.reverse A.reverse i = false := by
    intro i hi
    cases hx : matchAtB p.reverse A.reverse i with
    | false => rfl
    | true =>
      exfalso
      rw [matchAtB_rev_iff hp] at hx
      obtain ⟨u, t, hA, hlen⟩ := hx
      have hAlen := congrArg List.length hA
      have hppos := List.length_pos.mpr hp
      simp only [List.length_append] at hAlen
      have hocc : matchAtB p (A ++ p ++ B) u.length = true :=
        (matchAtB_iff hp).mpr ⟨u, t ++ p ++ B, by rw [hA]; simp, rfl⟩
      have := hm u.length (by simp; omega) (by omega)
      rw [this] at hocc
      exact Bool.false_ne_true hocc
  rw [rsplitL, hrev, splitOnL_split (by simpa using hp) hmB,
    splitOnL_nomatch (by simpa using hp) hmA]
  simp

/-- `rsplit` on a string with exactly two (necessarily non-overlapping)
occurrences of the non-empty separator — at positions `|A|` and
`|A| + |p| + |B|`, and nowhere else — yields the two rightmost pieces
first, followed by the split of the leftover prefix `A`. -/
theorem rsplitL_two_sep {p : List Char} (hp : p ≠ []) (A : List Char) {B C : List Char}
    (honly : ∀ i < (A ++ p ++ B ++ p ++ C).length,
      i ≠ A.length → i ≠ A.length + p.length + B.length →
      matchAtB p (A ++ p ++ B ++ p ++ C) i = false) :
    rsplitL (A ++ p ++ B ++ p ++ C) p = C :: B :: rsplitL A p := by
  have hppos := List.length_pos.mpr hp
  have hrev : (A ++ p ++ B ++ p ++ C).reverse =
      C.reverse ++ p.reverse ++ (B.reverse ++ p.reverse ++ A.reverse) := by simp
  have hrev2 : B.reverse ++ p.reverse ++ A.reverse = (A ++ p ++ B).reverse := by simp
  have hmC : ∀ i < C.reverse.length,
      matchAtB p.reverse
        (C.reverse ++ p.reverse ++ (B.reverse ++ p.reverse ++ A.reverse)) i = false := by
    intro i hi
    cases hx : matchAtB p.reverse
        (C.reverse ++ p.reverse ++ (B.reverse ++ p.reverse ++ A.reverse)) i with
    | false => rfl
    | true =>
      exfalso
      rw [← hrev, matchAtB_rev_iff hp] at hx
      obtain ⟨u, t, hs, hlen⟩ := hx
      have hslen := congrArg List.length hs
      simp only [List.length_append] at hslen
      simp only [List.length_reverse] at hi
      have hocc : matchAtB p (A ++ p ++ B ++ p ++ C) u.length = true :=
        (matchAtB_iff hp).mpr ⟨u, t, hs, rfl⟩
      have hfalse := honly u.length (by simp only [List.length_append]; omega)
        (by omega) (by omega)
      rw [hfalse] at hocc
      exact Bool.false_ne_true hocc
  have hmB : ∀ i < B.reverse.length,
      matchAtB p.reverse (B.reverse ++ p.reverse ++ A.reverse) i = false := by
    intro i hi
    cases hx : matchAtB p.reverse (B.reverse ++ p.reverse ++ A.reverse) i with
    | false => rfl
    | true =>
      exfalso
      rw [hrev2, matchAtB_rev_iff hp] at hx
      obtain ⟨u, t, hs, hlen⟩ := hx
      have hslen := congrArg List.length hs
      simp only [List.length_append] at hslen
      simp only [List.length_reverse] at hi
      have hfull : A ++ p ++ B ++ p ++ C = u ++ p ++ (t ++ p ++ C) := by
        rw [show A ++ p ++ B ++ p ++ C = (A ++ p ++ B) ++ p ++ C from by
          simp [List.append_assoc], hs]
        simp [List.append_assoc]
      have hocc : matchAtB p (A ++ p ++ B ++ p ++ C) u.length = true :=
        (matchAtB_iff hp).mpr ⟨u, t ++ p ++ C, hfull, rfl⟩
      have hfalse := honly u.length (by simp only [List.length_append]; omega)
        (by omega) (by omega)
      rw [hfalse] at hocc
      exact Bool.false_ne_true hocc
  rw [rsplitL, hrev, splitOnL_split (by simpa using hp) hmC,
    splitOnL_split (by simpa using hp) hmB]
  rw [rsplitL]
  simp

/-- Splitting by a single character is compositional around an explicit
occurrence of that character. -/
theorem splitGo_sc_append {c : Char} :
    ∀ (s t : List Char) (fuel : Nat) (acc : List Char),
      (s ++ c :: t).length < fuel →
      splitGo [c] fuel (s ++ c :: t) acc =
        splitGo [c] (s.length + 1) s acc ++ splitOnL t [c] := by
  intro s
  induction s with
  | nil =>
    intro t fuel acc h
    cases fuel with
    | zero => simp at h
    | succ g =>
      have hsl : stripLead [c] (c :: t) = some t := stripLead_append_self [c] t
      rw [List.nil_append, splitGo_cons_some hsl]
      rw [splitGo_fuel (by simp) g t (t.length + 1) [] (by simp at h; omega)
        (Nat.lt_succ_self _)]
      rw [splitOnL, if_neg (by simp)]
      rfl
  | cons b s ih =>
    intro t fuel acc h
    cases fuel with
    | zero => simp at h
    | succ g =>
      have harg : (b :: s) ++ c :: t = b :: (s ++ c :: t) := by simp
      by_cases hcb : c = b
      · subst hcb
        have hsl : stripLead [c] (c :: (s ++ c :: t)) = some (s ++ c :: t) :=
          stripLead_append_self [c] (s ++ c :: t)
        have hsl' : stripLead [c] (c :: s) = some s := stripLead_append_self [c] s
        rw [harg, splitGo_cons_some hsl, splitGo_cons_some hsl']
        rw [splitGo_fuel (by simp) g (s ++ c :: t) ((s ++ c :: t).length + 1) []
          (by simp at h ⊢; omega) (Nat.lt_succ_self _)]
        rw [ih t ((s ++ c :: t).length + 1) [] (Nat.lt_succ_self _)]
        simp
      · have hsl : stripLead [c] (b :: (s ++ c :: t)) = none := by
          rw [stripLead_single, if_neg hcb]
        have hsl' : stripLead [c] (b :: s) = none := by
          rw [stripLead_single, if_neg hcb]
        rw [harg, splitGo_cons_none hsl, splitGo_cons_none hsl']
        exact ih t g (b :: acc) (by simp at h ⊢; omega)

theorem splitOnL_sc_append {c : Char} (s t : List Char) :
    splitOnL (s ++ c :: t) [c] = splitOnL s [c] ++ splitOnL t [c] := by
  rw [splitOnL, if_neg (by simp)]
  rw [splitGo_sc_append s t _ [] (Nat.lt_succ_self _)]
  rw [show splitGo [c] (s.length + 1) s [] = splitOnL s [c] from
    (by rw [splitOnL, if_neg (by simp)])]

theorem matchAtB_single_mem {c : Char} {s : List Char} {i : Nat}
    (h : matchAtB [c] s i = true) : c ∈ s := by
  obtain ⟨u, t, rfl, -⟩ := (@matchAtB_iff [c] (by simp) s i).mp h
  simp

theorem splitOnL_sc_nomatch {c : Char} {s : List Char} (h : c ∉ s) :
    splitOnL s [c] = [s] := by
  refine splitOnL_nomatch (by simp) (fun i _ => ?_)
  cases hx : matchAtB [c] s i with
  | false => rfl
  | true => exact absurd (matchAtB_single_mem hx) h

/-- `rsplit` by a single character occurring exactly once. -/
theorem rsplitL_sc_two {c : Char} {A B : List Char} (hA : c ∉ A) (hB : c ∉ B) :
    rsplitL (A ++ c :: B) [c] = [B, A] := by
  have hrev : (A ++ c :: B).reverse = B.reverse ++ c :: A.reverse := by simp
  rw [rsplitL, show ([c] : List Char).reverse = [c] from rfl, hrev]
  rw [splitOnL_sc_append, splitOnL_sc_nomatch (by simpa using hB),
    splitOnL_sc_nomatch (by simpa using hA)]
  simp

/-- `rsplit` by a single character with (at least) two explicit
occurrences: the two rightmost clean pieces come out last. -/
theorem rsplitL_sc_multi {c : Char} {A B : List Char} (C : List Char)
    (hA : c ∉ A) (hB : c ∉ B) :
    rsplitL (A ++ c :: B ++ c :: C) [c] = rsplitL C [c] ++ [B, A] := by
  have hrev : (A ++ c :: B ++ c :: C).reverse =
      C.reverse ++ c :: (B.reverse ++ c :: A.reverse) := by simp
  rw [rsplitL, show ([c] : List Char).reverse = [c] from rfl, hrev]
  rw [splitOnL_sc_append, splitOnL_sc_append,
    @splitOnL_sc_nomatch c B.reverse (by simpa using hB),
    @splitOnL_sc_nomatch c A.reverse (by simpa using hA)]
  rw [rsplitL, show ([c] : List Char).reverse = [c] from rfl]
  simp

theorem splitGo_ne_nil {p : List Char} :
    ∀ (fuel : Nat) (s acc : List Char), splitGo p fuel s acc ≠ [] := by
  intro fuel
  induction fuel with
  | zero => intro s acc; simp [splitGo]
  | succ g ih =>
    intro s acc
    cases s with
    | nil => simp [splitGo]
    | cons b s =>
      cases hsl : stripLead p (b :: s) with
      | some rest => rw [splitGo_cons_some hsl]; simp
      | none => rw [splitGo_cons_none hsl]; exact ih s (b :: acc)

theorem rsplitL_ne_nil (s p : List Char) : rsplitL s p ≠ [] := by
  rw [rsplitL]
  by_cases hp : p.reverse.isEmpty
  · rw [splitOnL, if_pos hp]; simp
  · rw [splitOnL, if_neg hp]
    intro h
    exact splitGo_ne_nil _ _ _ (List.map_eq_nil_iff.mp h)

theorem intercalate_pair {α : Type} (sep x y : List α) :
    List.intercalate sep [x, y] = x ++ sep ++ y := by
  simp [List.intercalate, List.intersperse]

theorem intercalate_nil_cons {α : Type} (x : List α) (xs : List (List α)) :
    List.intercalate ([] : List α) (x :: xs) = x ++ List.intercalate [] xs := by
  cases xs with
  | nil => simp [List.intercalate, List.intersperse]
  | cons y ys => simp [List.intercalate, List.intersperse]

/-! ## Lemmas about the per-file transform -/

/-- The transform on a stem with exactly one occurrence of a
single-character separator: swap the two (trimmed) pieces around the
padded join separator. -/
theorem newFileName_sc_two {c : Char} {j pad A B : List Char}
    (hA : c ∉ A) (hB : c ∉ B) :
    newFileName [c] j pad (A ++ c :: B) =
      some (trimL B ++ (pad ++ j ++ pad) ++ trimL A) := by
  rw [newFileName]
  simp only [rsplitL_sc_two hA hB, List.map_cons, List.map_nil, List.length_cons,
    List.length_nil]
  rw [if_neg (by simp)]
  rw [intercalate_pair]

/-- The transform skips any stem in which a single-character separator
occurs more than once: the split has at least three pieces. -/
theorem newFileName_sc_multi {c : Char} {j pad A B : List Char} (C : List Char)
    (hA : c ∉ A) (hB : c ∉ B) :
    newFileName [c] j pad (A ++ c :: B ++ c :: C) = none := by
  simp only [newFileName, rsplitL_sc_multi C hA hB]
  have hne := rsplitL_ne_nil C [c]
  have hlen : 1 ≤ (rsplitL C [c]).length := by
    cases h : rsplitL C [c] with
    | nil => exact absurd h hne
    | cons _ _ => simp
  have hx : (List.map trimL (rsplitL C [c] ++ [B, A])).length ≠ 2 := by
    rw [List.length_map, List.length_append]
    show (rsplitL C [c]).length + 2 ≠ 2
    omega
  rw [if_pos hx]

/-- The transform skips any stem the separator does not split (a single
piece). -/
theorem newFileName_sc_one {c : Char} {j pad A : List Char} (hA : c ∉ A) :
    newFileName [c] j pad A = none := by
  rw [newFileName]
  have hone : rsplitL A [c] = [A] := by
    rw [rsplitL, show ([c] : List Char).reverse = [c] from rfl,
      splitOnL_sc_nomatch (by simpa using hA)]
    simp
  simp [hone]

/-- Success of the transform forces exactly two pieces, and the result is
the two pieces around the padded join separator. -/
theorem newFileName_eq_some {old j pad stem r : List Char}
    (h : newFileName old j pad stem = some r) :
    ∃ f₀ f₁, (rsplitL stem old).map trimL = [f₀, f₁] ∧
      r = f₀ ++ (pad ++ j ++ pad) ++ f₁ := by
  simp only [newFileName] at h
  by_cases hlen : ((rsplitL stem old).map trimL).length = 2
  · obtain ⟨f₀, f₁, hf⟩ := List.length_eq_two.mp hlen
    rw [hf] at h
    rw [if_neg (by simp)] at h
    refine ⟨f₀, f₁, hf, ?_⟩
    rw [intercalate_pair] at h
    exact (Option.some.inj h).symm
  · rw [if_pos (by simpa using hlen)] at h
    cases h

/-- Failure of the transform is exactly "not two pieces". -/
theorem newFileName_eq_none {old j pad stem : List Char}
    (h : ((rsplitL stem old).map trimL).length ≠ 2) :
    newFileName old j pad stem = none := by
  rw [newFileName, if_pos (by simpa using h)]

/-! ## Lemmas about `splitFileAtDot` -/

theorem dropWhile_append_of_all {alpha : Type} {p : alpha → Bool} :
    ∀ {xs ys : List alpha}, (∀ x ∈ xs, p x = true) →
      (xs ++ ys).dropWhile p = ys.dropWhile p := by
  intro xs
  induction xs with
  | nil => intro ys _; rfl
  | cons a xs ih =>
    intro ys h
    rw [List.cons_append, List.dropWhile_cons, if_pos (h a (by simp))]
    exact ih (fun x hx => h x (by simp [hx]))

theorem takeWhile_append_of_all {alpha : Type} {p : alpha → Bool} :
    ∀ {xs ys : List alpha}, (∀ x ∈ xs, p x = true) →
      (xs ++ ys).takeWhile p = xs ++ ys.takeWhile p := by
  intro xs
  induction xs with
  | nil => intro ys _; rfl
  | cons a xs ih =>
    intro ys h
    rw [List.cons_append, List.takeWhile_cons, if_pos (h a (by simp))]
    rw [ih (fun x hx => h x (by simp [hx])), List.cons_append]

theorem dropWhile_of_all {alpha : Type} {p : alpha → Bool} {xs : List alpha}
    (h : ∀ x ∈ xs, p x = true) : xs.dropWhile p = [] := by
  rw [← List.append_nil xs, dropWhile_append_of_all h]
  rfl

/-- A file name built as `stem ++ "." ++ ext` with a dot-free extension
decomposes back into that stem and extension (the stem must be non-empty
and the whole name must not be the special `".."`). -/
theorem splitFileAtDot_ext {n ext : List Char} (hn : n ≠ [])
    (he : ('.' : Char) ∉ ext) (hne : ext ≠ [] ∨ n ≠ ['.']) :
    splitFileAtDot (n ++ '.' :: ext) = (n, some ext) := by
  have hdots : n ++ '.' :: ext ≠ ['.', '.'] := by
    intro hc
    have hlen := congrArg List.length hc
    simp only [List.length_append, List.length_cons, List.length_nil] at hlen
    have hnp : 0 < n.length := List.length_pos.mpr hn
    have hn1 : n.length = 1 := by omega
    have hext0 : ext.length = 0 := by omega
    obtain ⟨a, rfl⟩ := List.length_eq_one.mp hn1
    rw [List.length_eq_zero] at hext0
    subst hext0
    simp at hc
    rcases hne with h1 | h2
    · exact h1 rfl
    · exact h2 (by rw [hc])
  have hall : ∀ x ∈ ext.reverse, (decide (x ≠ '.')) = true := by
    intro x hx
    simp only [List.mem_reverse] at hx
    simp only [decide_eq_true_eq]
    intro hxd
    exact he (hxd ▸ hx)
  have hrev : (n ++ '.' :: ext).reverse = ext.reverse ++ '.' :: n.reverse := by simp
  obtain ⟨a, as, ha⟩ := List.exists_cons_of_ne_nil (fun hr => hn (by
    have := congrArg List.reverse hr
    simpa using this) : n.reverse ≠ [])
  rw [splitFileAtDot, if_neg hdots]
  simp only [hrev]
  rw [dropWhile_append_of_all hall, takeWhile_append_of_all hall]
  rw [List.dropWhile_cons, List.takeWhile_cons]
  rw [if_neg (by simp), if_neg (by simp)]
  rw [ha, List.append_nil]
  simp [← ha]

/-- A file name containing no dot at all has no extension; the stem is
the whole name. -/
theorem splitFileAtDot_noDot {name : List Char} (h : ('.' : Char) ∉ name) :
    splitFileAtDot name = (name, none) := by
  have hdots : name ≠ ['.', '.'] := by rintro rfl; simp at h
  have hall : ∀ x ∈ name.reverse, (decide (x ≠ '.')) = true := by
    intro x hx
    simp only [List.mem_reverse] at hx
    simp only [decide_eq_true_eq]
    intro hxd
    exact h (hxd ▸ hx)
  rw [splitFileAtDot, if_neg hdots]
  simp only [dropWhile_of_all hall]

/-! ## No separator character survives in the split pieces -/

theorem splitGo_sc_pieces {c : Char} :
    ∀ (s : List Char) (fuel : Nat) (acc : List Char), s.length < fuel → c ∉ acc →
      ∀ piece ∈ splitGo [c] fuel s acc, c ∉ piece := by
  intro s
  induction s with
  | nil =>
    intro fuel acc h hacc piece hp
    cases fuel with
    | zero => omega
    | succ g =>
      simp only [splitGo, List.mem_singleton] at hp
      subst hp
      simpa using hacc
  | cons b s ih =>
    intro fuel acc h hacc piece hp
    cases fuel with
    | zero => simp at h
    | succ g =>
      by_cases hcb : c = b
      · subst hcb
        rw [splitGo_cons_some (show stripLead [c] (c :: s) = some s from
          stripLead_append_self [c] s)] at hp
        rcases List.mem_cons.mp hp with hp1 | hp2
        · subst hp1; simpa using hacc
        · exact ih g [] (by simp at h; omega) (by simp) piece hp2
      · rw [splitGo_cons_none (by rw [stripLead_single, if_neg hcb])] at hp
        refine ih g (b :: acc) (by simp at h; omega) ?_ piece hp
        intro hc
        rcases List.mem_cons.mp hc with h1 | h2
        · exact hcb h1
        · exact hacc h2

theorem intercalate_nil_no_mem {c : Char} :
    ∀ {ps : List (List Char)}, (∀ piece ∈ ps, c ∉ piece) →
      c ∉ List.intercalate [] ps := by
  intro ps
  induction ps with
  | nil => intro _; simp [List.intercalate, List.intersperse]
  | cons x xs ih =>
    intro h
    rw [intercalate_nil_cons]
    intro hmem
    rcases List.mem_append.mp hmem with h1 | h2
    · exact h x (by simp) h1
    · exact ih (fun p hp => h p (by simp [hp])) h2

/-- `s.replace(c, "")` removes every occurrence of the character `c`. -/
theorem replaceL_sc_not_mem (c : Char) (s : List Char) : c ∉ replaceL s [c] [] := by
  rw [replaceL]
  refine intercalate_nil_no_mem ?_
  intro piece hp
  rw [splitOnL, if_neg (by simp)] at hp
  exact splitGo_sc_pieces s (s.length + 1) [] (Nat.lt_succ_self _) (by simp) piece hp


/-! ## Lemmas about the traversal -/

theorem runEntries_nil (cfg : Config) : runEntries cfg [] = ([], .ok 0) := by
  simp [runEntries]

theorem runEntries_cons (cfg : Config) (e : Entry) (rest : List Entry) :
    runEntries cfg (e :: rest) =
      match runEntry cfg e with
      | (log, .error er) => (log, .error er)
      | (log, .ok n) =>
        match runEntries cfg rest with
        | (log2, .ok m) => (log ++ log2, .ok (n + m))
        | (log2, .error er) => (log ++ log2, .error er) := by
  simp [runEntries]

theorem runEntry_file (cfg : Config) (name : List Char) (rf : Bool) :
    runEntry cfg (.file name rf) =
      match splitFileAtDot name with
      | (_, none) => ([], .ok 0)
      | (stem, some ext) =>
        if cfg.extensions.contains ext then
          match newFileName cfg.old_sep cfg.new_sep cfg.padding stem with
          | none => ([], .ok 0)
          | some nb =>
            if rf then ([], .error ())
            else ([(name, nb ++ '.' :: ext)], .ok 1)
        else ([], .ok 0) := by
  simp [runEntry]

theorem runEntry_dir (cfg : Config) (rdf : Bool) (entries : List Entry) :
    runEntry cfg (.dir rdf entries) =
      if cfg.recursive then
        if rdf then ([], .error ()) else runEntries cfg entries
      else ([], .ok 0) := by
  simp [runEntry]

/-- A file whose extension is missing or not in the configured set is
silently skipped: no rename, no count, no error — whether or not a rename
would have failed. -/
theorem runEntry_skip_ext (cfg : Config) (name : List Char) (rf : Bool)
    (h : ∀ e, (splitFileAtDot name).2 = some e → cfg.extensions.contains e = false) :
    runEntry cfg (.file name rf) = ([], .ok 0) := by
  rw [runEntry_file]
  rcases hsp : splitFileAtDot name with ⟨stem, oe⟩
  cases oe with
  | none => rfl
  | some e =>
    have he : e ∉ cfg.extensions := by simpa using h e (by rw [hsp])
    simp [he]

/-- A candidate file whose stem does not split into exactly two pieces is
skipped: no rename, no count, no error — whether or not a rename would
have failed. -/
theorem runEntry_skip_split (cfg : Config) {name stem ext : List Char} (rf : Bool)
    (hsp : splitFileAtDot name = (stem, some ext))
    (hext : cfg.extensions.contains ext = true)
    (hlen : ((rsplitL stem cfg.old_sep).map trimL).length ≠ 2) :
    runEntry cfg (.file name rf) = ([], .ok 0) := by
  rw [runEntry_file, hsp]
  simp [hext, newFileName_eq_none hlen]

/-- A candidate file whose stem splits into exactly two pieces is renamed
(when the filesystem rename succeeds). -/
theorem runEntry_rename (cfg : Config) {name stem ext nb : List Char}
    (hsp : splitFileAtDot name = (stem, some ext))
    (hext : cfg.extensions.contains ext = true)
    (hnf : newFileName cfg.old_sep cfg.new_sep cfg.padding stem = some nb) :
    runEntry cfg (.file name false) = ([(name, nb ++ '.' :: ext)], .ok 1) := by
  have hext' : ext ∈ cfg.extensions := by simpa using hext
  rw [runEntry_file, hsp]
  simp [hext', hnf]

/-- The first failing entry aborts the whole loop: whatever entries come
after it are never examined, and the renames already performed (both by
the successful leading entries and by the failing entry's own subtree)
are kept. -/
theorem runEntries_append_error {cfg : Config} {es₁ : List Entry} {e : Entry}
    (es₂ : List Entry) {l₁ l₂ : RenameLog} {n₁ : Nat}
    (h₁ : runEntries cfg es₁ = (l₁, .ok n₁))
    (h₂ : runEntry cfg e = (l₂, .error ())) :
    runEntries cfg (es₁ ++ e :: es₂) = (l₁ ++ l₂, .error ()) := by
  induction es₁ generalizing l₁ n₁ with
  | nil =>
    rw [runEntries_nil] at h₁
    injection h₁ with hl hr
    subst hl
    rw [List.nil_append, runEntries_cons, h₂]
    simp
  | cons a as ih =>
    rw [runEntries_cons] at h₁
    rcases hae : runEntry cfg a with ⟨la, ra⟩
    rw [hae] at h₁
    cases ra with
    | error er => simp at h₁
    | ok na =>
      rcases has : runEntries cfg as with ⟨las, ras⟩
      rw [has] at h₁
      cases ras with
      | error er => simp at h₁
      | ok ma =>
        injection h₁ with hl hr
        subst hl
        rw [List.cons_append, runEntries_cons, hae, ih has]
        simp

/-- Counts add along the loop when both parts succeed. -/
theorem runEntries_cons_ok {cfg : Config} {e : Entry} {rest : List Entry}
    {l₁ l₂ : RenameLog} {n₁ n₂ : Nat}
    (h₁ : runEntry cfg e = (l₁, .ok n₁)) (h₂ : runEntries cfg rest = (l₂, .ok n₂)) :
    runEntries cfg (e :: rest) = (l₁ ++ l₂, .ok (n₁ + n₂)) := by
  rw [runEntries_cons, h₁, h₂]

mutual

/-- On success, the count returned for one entry is exactly the number of
renames it performed. -/
theorem runEntry_count (cfg : Config) :
    ∀ (e : Entry) (log : RenameLog) (n : Nat),
      runEntry cfg e = (log, .ok n) → n = log.length
  | .file name rf, log, n, h => by
    rw [runEntry_file] at h
    rcases hsp : splitFileAtDot name with ⟨stem, oe⟩
    rw [hsp] at h
    cases oe with
    | none =>
      injection h with hl hr
      subst hl
      injection hr with hr
      simp [← hr]
    | some ext =>
      simp only [] at h
      by_cases hext : cfg.extensions.contains ext
      · rw [if_pos hext] at h
        cases hnf : newFileName cfg.old_sep cfg.new_sep cfg.padding stem with
        | none =>
          rw [hnf] at h
          injection h with hl hr
          subst hl
          injection hr with hr
          simp [← hr]
        | some nb =>
          rw [hnf] at h
          cases rf with
          | true => simp at h
          | false =>
            injection h with hl hr
            subst hl
            injection hr with hr
            simp [← hr]
      · rw [if_neg hext] at h
        injection h with hl hr
        subst hl
        injection hr with hr
        simp [← hr]
  | .dir rdf entries, log, n, h => by
    rw [runEntry_dir] at h
    by_cases hrec : cfg.recursive
    · rw [if_pos hrec] at h
      cases rdf with
      | true => simp at h
      | false => exact runEntries_count cfg entries log n h
    · rw [if_neg hrec] at h
      injection h with hl hr
      subst hl
      injection hr with hr
      simp [← hr]

/-- On success, the count returned for a list of entries is exactly the
number of renames performed across it (all levels included). -/
theorem runEntries_count (cfg : Config) :
    ∀ (es : List Entry) (log : RenameLog) (n : Nat),
      runEntries cfg es = (log, .ok n) → n = log.length
  | [], log, n, h => by
    rw [runEntries_nil] at h
    injection h with hl hr
    subst hl
    injection hr with hr
    simp [← hr]
  | e :: rest, log, n, h => by
    rw [runEntries_cons] at h
    rcases hre : runEntry cfg e with ⟨l1, r1⟩
    rw [hre] at h
    cases r1 with
    | error er => simp at h
    | ok n1 =>
      rcases hrs : runEntries cfg rest with ⟨l2, r2⟩
      rw [hrs] at h
      cases r2 with
      | error er => simp at h
      | ok n2 =>
        injection h with hl hr
        subst hl
        injection hr with hr
        have e1 := runEntry_count cfg e l1 n1 hre
        have e2 := runEntries_count cfg rest l2 n2 hrs
        subst hr
        simp [e1, e2]

end


/-- With recursion off, the traversal is oblivious to directory entries:
it behaves exactly as if they were not listed at all (so nothing inside
any subdirectory is read, renamed, counted, or able to fail). -/
theorem runEntries_nonrecursive (cfg : Config) (h : cfg.recursive = false) :
    ∀ es : List Entry, runEntries cfg es = runEntries cfg (es.filter isFileEntry) := by
  intro es
  induction es with
  | nil => rfl
  | cons e rest ih =>
    cases e with
    | file name rf =>
      rw [List.filter_cons, if_pos (by simp [isFileEntry])]
      rw [runEntries_cons, runEntries_cons, ih]
    | dir rdf sub =>
      rw [List.filter_cons, if_neg (by simp [isFileEntry])]
      have hd : runEntry cfg (.dir rdf sub) = ([], .ok 0) := by
        rw [runEntry_dir, h]
        simp
      rcases hrs : runEntries cfg rest with ⟨l2, r2⟩
      rw [runEntries_cons, hd, hrs, ← ih, hrs]
      cases r2 with
      | ok m => simp
      | error er => simp

/-- Build the transform result directly from a known two-piece split. -/
theorem newFileName_of_parts {old j pad stem f₀ f₁ : List Char}
    (h : (rsplitL stem old).map trimL = [f₀, f₁]) :
    newFileName old j pad stem = some (f₀ ++ (pad ++ j ++ pad) ++ f₁) := by
  simp only [newFileName, h]
  rw [if_neg (by simp), intercalate_pair]


/-! ## Claims -/

/-- C1, counterexample.  The spec claims that for base `"a-b-c"` with
split `"-"` only the last occurrence is used, yielding the two pieces
`"a-b"` and `"c"` and a rename.  The code's `rsplit` splits at **every**
occurrence: the pieces are `"c"`, `"b"`, `"a"`, the two-piece check
fails, and the transform yields `none` (a skip), not a rename. -/
theorem c1_counterexample :
    (rsplitL "a-b-c".toList "-".toList).map trimL =
      ["c".toList, "b".toList, "a".toList] ∧
    newFileName "-".toList "-".toList "".toList "a-b-c".toList = none ∧
    newFileName "-".toList "-".toList "".toList "a-b-c".toList ≠
      some "c-a-b".toList := by
  refine ⟨by decide, by decide, by decide⟩

/-- C1, amended.  For every candidate file whose base name contains the
(non-empty) split separator at more than one position, no two of the
matched occurrences overlapping — i.e. the base name has the shape
`A ++ sep ++ B ++ sep ++ C` with the separator matching at no other
position — `rsplit` yields one piece per occurrence plus one (at least
three pieces), so the two-piece check fails and the file is skipped
(left untouched, uncounted, and without error), not renamed. -/
theorem c1_multi_separator_skipped (exts : List (List Char))
    (p j pad : List Char) (A B C ext : List Char) (rec rf : Bool)
    (hp : p ≠ [])
    (honly : ∀ i < (A ++ p ++ B ++ p ++ C).length,
      i ≠ A.length → i ≠ A.length + p.length + B.length →
      matchAtB p (A ++ p ++ B ++ p ++ C) i = false)
    (hd : ('.' : Char) ∉ ext) (hne : ext ≠ [])
    (hext : exts.contains ext = true) :
    runEntry ⟨exts, p, j, pad, rec⟩
      (.file ((A ++ p ++ B ++ p ++ C) ++ '.' :: ext) rf) = ([], .ok 0) := by
  have hppos := List.length_pos.mpr hp
  have hstem : A ++ p ++ B ++ p ++ C ≠ [] := by
    intro hnil
    have hl := congrArg List.length hnil
    simp only [List.length_append, List.length_nil] at hl
    omega
  have hsp := splitFileAtDot_ext hstem hd (Or.inl hne)
  refine runEntry_skip_split _ rf hsp hext ?_
  show ((rsplitL (A ++ p ++ B ++ p ++ C) p).map trimL).length ≠ 2
  rw [rsplitL_two_sep hp A honly, List.length_map, List.length_cons,
    List.length_cons]
  have hne2 := rsplitL_ne_nil A p
  have h1 : 1 ≤ (rsplitL A p).length := by
    cases hx : rsplitL A p with
    | nil => exact absurd hx hne2
    | cons _ _ => simp
  omega

/-- C1, witness for the amended theorem, with the two-character
separator `"--"`: `"a--b--c.mp3"` is skipped even though its rename
would have failed. -/
theorem c1_multi_separator_skipped_witness :
    ("--".toList ≠ []) ∧
    (∀ i < ("a".toList ++ "--".toList ++ "b".toList ++ "--".toList ++
        "c".toList).length,
      i ≠ "a".toList.length →
      i ≠ "a".toList.length + "--".toList.length + "b".toList.length →
      matchAtB "--".toList ("a".toList ++ "--".toList ++ "b".toList ++
        "--".toList ++ "c".toList) i = false) ∧
    (('.' : Char) ∉ "mp3".toList) ∧ "mp3".toList ≠ [] ∧
    (["mp3".toList].contains "mp3".toList = true) ∧
    runEntry ⟨["mp3".toList], "--".toList, "--".toList, [], false⟩
      (.file (("a".toList ++ "--".toList ++ "b".toList ++ "--".toList ++
        "c".toList) ++ '.' :: "mp3".toList) true) = ([], .ok 0) :=
  ⟨by decide, by decide, by decide, by decide, by decide,
    c1_multi_separator_skipped ["mp3".toList] "--".toList "--".toList []
      "a".toList "b".toList "c".toList "mp3".toList false true (by decide)
      (by decide) (by decide) (by decide) (by decide)⟩

/-- C2.  For a base name `A ++ sep ++ B` in which the (non-empty) split
separator occurs exactly at position `|A|` and nowhere else, with both
pieces trimmed and a dot-free non-empty extension in the matched set,
the file is renamed to `B ++ padding ++ join ++ padding ++ A` with the
original extension reappended after a dot. -/
theorem c2_swap_correct (exts : List (List Char)) (p j pad : List Char)
    (A B ext : List Char) (rec : Bool)
    (hp : p ≠ [])
    (honce : ∀ i < (A ++ p ++ B).length, i ≠ A.length →
      matchAtB p (A ++ p ++ B) i = false)
    (htA : trimL A = A) (htB : trimL B = B)
    (hd : ('.' : Char) ∉ ext) (hne : ext ≠ [])
    (hext : exts.contains ext = true) :
    runEntry ⟨exts, p, j, pad, rec⟩ (.file ((A ++ p ++ B) ++ '.' :: ext) false) =
      ([((A ++ p ++ B) ++ '.' :: ext,
         B ++ pad ++ j ++ pad ++ A ++ '.' :: ext)], .ok 1) := by
  have hstem : A ++ p ++ B ≠ [] := by
    intro hnil
    rw [List.append_eq_nil, List.append_eq_nil] at hnil
    exact hp hnil.1.2
  have hsp := splitFileAtDot_ext hstem hd (Or.inl hne)
  have hparts : (rsplitL (A ++ p ++ B) p).map trimL = [B, A] := by
    rw [rsplitL_two hp honce]
    simp [htA, htB]
  have hnf := @newFileName_of_parts p j pad (A ++ p ++ B) B A hparts
  rw [runEntry_rename _ hsp hext hnf]
  simp

/-- C2, witness: `"song-title.mp3"` is renamed to `"title-song.mp3"`. -/
theorem c2_swap_correct_witness :
    ("-".toList ≠ []) ∧
    (∀ i < ("song".toList ++ "-".toList ++ "title".toList).length,
      i ≠ "song".toList.length →
      matchAtB "-".toList ("song".toList ++ "-".toList ++ "title".toList) i = false) ∧
    trimL "song".toList = "song".toList ∧ trimL "title".toList = "title".toList ∧
    runEntry ⟨["mp3".toList], "-".toList, "-".toList, [], false⟩
      (.file (("song".toList ++ "-".toList ++ "title".toList) ++ '.' :: "mp3".toList)
        false) =
      ([(("song".toList ++ "-".toList ++ "title".toList) ++ '.' :: "mp3".toList,
         "title".toList ++ [] ++ "-".toList ++ [] ++ "song".toList ++
           '.' :: "mp3".toList)], .ok 1) :=
  ⟨by decide, by decide, by decide, by decide,
    c2_swap_correct ["mp3".toList] "-".toList "-".toList [] "song".toList
      "title".toList "mp3".toList false (by decide) (by decide) (by decide)
      (by decide) (by decide) (by decide) (by decide)⟩

/-- C3, counterexample.  The spec claims a part that is empty after
trimming causes a skip.  For base `"a-"` with split `"-"` the pieces are
`""` and `"a"` — the first is empty after trimming — yet the two-piece
check passes and the file **is** renamed (to base `"-a"`). -/
theorem c3_counterexample :
    (rsplitL "a-".toList "-".toList).map trimL = ["".toList, "a".toList] ∧
    trimL "".toList = "".toList ∧
    newFileName "-".toList "-".toList "".toList "a-".toList =
      some "-a".toList := by
  refine ⟨by decide, by decide, by decide⟩

/-- C3, amended.  A candidate file is renamed exactly when splitting its
stem yields exactly two pieces — which may well be empty after trimming;
any other piece count is a skip (untouched, uncounted, never an error,
even if a rename would have failed). -/
theorem c3_two_piece_gate :
    (∀ (cfg : Config) (name stem ext : List Char) (rf : Bool),
        splitFileAtDot name = (stem, some ext) →
        cfg.extensions.contains ext = true →
        ((rsplitL stem cfg.old_sep).map trimL).length ≠ 2 →
        runEntry cfg (.file name rf) = ([], .ok 0)) ∧
    (∀ (cfg : Config) (name stem ext f₀ f₁ : List Char),
        splitFileAtDot name = (stem, some ext) →
        cfg.extensions.contains ext = true →
        (rsplitL stem cfg.old_sep).map trimL = [f₀, f₁] →
        runEntry cfg (.file name false) =
          ([(name, f₀ ++ (cfg.padding ++ cfg.new_sep ++ cfg.padding) ++ f₁ ++
            '.' :: ext)], .ok 1)) := by
  constructor
  · intro cfg name stem ext rf hsp hext hlen
    exact runEntry_skip_split cfg rf hsp hext hlen
  · intro cfg name stem ext f₀ f₁ hsp hext hparts
    exact runEntry_rename cfg hsp hext (newFileName_of_parts hparts)

/-- C3, witness: `"track.mp3"` (one piece) is skipped even with a
failing rename flag; `"a-.mp3"` (second piece empty) is renamed. -/
theorem c3_two_piece_gate_witness :
    splitFileAtDot "track.mp3".toList = ("track".toList, some "mp3".toList) ∧
    ((rsplitL "track".toList mp3Cfg.old_sep).map trimL).length ≠ 2 ∧
    runEntry mp3Cfg (.file "track.mp3".toList true) = ([], .ok 0) ∧
    (rsplitL "a-".toList mp3Cfg.old_sep).map trimL = ["".toList, "a".toList] ∧
    runEntry mp3Cfg (.file "a-.mp3".toList false) =
      ([("a-.mp3".toList, "".toList ++ (mp3Cfg.padding ++ mp3Cfg.new_sep ++
        mp3Cfg.padding) ++ "a".toList ++ '.' :: "mp3".toList)], .ok 1) :=
  ⟨by decide, by decide,
    c3_two_piece_gate.1 mp3Cfg "track.mp3".toList "track".toList "mp3".toList true
      (by decide) (by decide) (by decide),
    by decide,
    c3_two_piece_gate.2 mp3Cfg "a-.mp3".toList "a-".toList "mp3".toList
      "".toList "a".toList (by decide) (by decide) (by decide)⟩

/-- C4, counterexample.  With join = split = `"-"`, symmetric padding
`" "`, and already-trimmed pieces `"a"`, `"b"`, applying the transform
twice to base `"a-b"` yields `"a - b"`, not the original `"a-b"`: the
transform is **not** its own inverse once the padding is non-empty. -/
theorem c4_counterexample :
    trimL "a".toList = "a".toList ∧ trimL "b".toList = "b".toList ∧
    ((newFileName "-".toList "-".toList " ".toList "a-b".toList).bind
        (newFileName "-".toList "-".toList " ".toList)) =
      some "a - b".toList ∧
    ((newFileName "-".toList "-".toList " ".toList "a-b".toList).bind
        (newFileName "-".toList "-".toList " ".toList)) ≠
      some "a-b".toList := by
  refine ⟨by decide, by decide, by decide, by decide⟩

/-- C4, amended.  The transform is its own inverse when the join
separator equals the (single-character) split separator, the padding is
**empty**, the separator occurs exactly once, and the pieces are
trimmed. -/
theorem c4_double_swap_identity {c : Char} {A B : List Char}
    (hA : c ∉ A) (hB : c ∉ B) (htA : trimL A = A) (htB : trimL B = B) :
    ((newFileName [c] [c] [] (A ++ c :: B)).bind (newFileName [c] [c] [])) =
      some (A ++ c :: B) := by
  rw [newFileName_sc_two hA hB, htA, htB]
  rw [Option.some_bind]
  have hsh : B ++ ([] ++ [c] ++ []) ++ A = B ++ c :: A := by simp
  rw [hsh, newFileName_sc_two hB hA, htA, htB]
  simp

/-- C4, witness: base `"song-title"` comes back to itself after two
swaps with empty padding. -/
theorem c4_double_swap_identity_witness :
    ('-' ∉ "song".toList) ∧ ('-' ∉ "title".toList) ∧
    trimL "song".toList = "song".toList ∧ trimL "title".toList = "title".toList ∧
    ((newFileName ['-'] ['-'] [] ("song".toList ++ '-' :: "title".toList)).bind
        (newFileName ['-'] ['-'] [])) =
      some ("song".toList ++ '-' :: "title".toList) :=
  ⟨by decide, by decide, by decide, by decide,
    c4_double_swap_identity (by decide) (by decide) (by decide) (by decide)⟩

/-- C5.  (1) If the entries processed so far succeeded with log `l₁` and
count `n₁`, and the next entry fails, the whole loop returns the error
at once: the remaining entries `es₂` are never examined (the result does
not depend on them) and the renames already performed (`l₁ ++ l₂`) are
kept, not rolled back.  (2) An error inside a subdirectory propagates
out of the recursive call with its log intact.  (3) A directory-listing
failure aborts before any entry is processed. -/
theorem c5_abort_on_error :
    (∀ (cfg : Config) (es₁ : List Entry) (e : Entry) (es₂ : List Entry)
        (l₁ l₂ : RenameLog) (n₁ : Nat),
        runEntries cfg es₁ = (l₁, .ok n₁) →
        runEntry cfg e = (l₂, .error ()) →
        runEntries cfg (es₁ ++ e :: es₂) = (l₁ ++ l₂, .error ())) ∧
    (∀ (cfg : Config) (sub : List Entry) (l : RenameLog),
        cfg.recursive = true → runEntries cfg sub = (l, .error ()) →
        runEntry cfg (.dir false sub) = (l, .error ())) ∧
    (∀ (cfg : Config) (es : List Entry),
        rename_files_swapped cfg true es = ([], .error ())) := by
  refine ⟨fun cfg es₁ e es₂ l₁ l₂ n₁ h₁ h₂ => runEntries_append_error es₂ h₁ h₂,
    fun cfg sub l hrec h => ?_, fun cfg es => ?_⟩
  · rw [runEntry_dir, hrec]
    simpa using h
  · simp [rename_files_swapped]

/-- C5, witness: after `"a-b.mp3"` is renamed, a failing rename of
`"c-d.mp3"` aborts; the following entry `"e-f.mp3"` is not processed and
the first rename stays in the log. -/
theorem c5_abort_on_error_witness :
    runEntries mp3CfgR [.file "a-b.mp3".toList false] =
      ([("a-b.mp3".toList, "b-a.mp3".toList)], .ok 1) ∧
    runEntry mp3CfgR (.file "c-d.mp3".toList true) = ([], .error ()) ∧
    runEntries mp3CfgR ([.file "a-b.mp3".toList false] ++
        .file "c-d.mp3".toList true :: [.file "e-f.mp3".toList false]) =
      ([("a-b.mp3".toList, "b-a.mp3".toList)] ++ [], .error ()) :=
  ⟨by simp [runEntries, runEntry, mp3CfgR, splitFileAtDot, newFileName, rsplitL,
      splitOnL, splitGo, stripLead, trimL, isRustWhitespace, List.intercalate,
      List.intersperse],
   by simp [runEntry, mp3CfgR, splitFileAtDot, newFileName, rsplitL, splitOnL,
      splitGo, stripLead, trimL, isRustWhitespace, List.intercalate,
      List.intersperse],
   c5_abort_on_error.1 mp3CfgR [.file "a-b.mp3".toList false]
     (.file "c-d.mp3".toList true) [.file "e-f.mp3".toList false]
     [("a-b.mp3".toList, "b-a.mp3".toList)] [] 1
     (by simp [runEntries, runEntry, mp3CfgR, splitFileAtDot, newFileName,
       rsplitL, splitOnL, splitGo, stripLead, trimL, isRustWhitespace,
       List.intercalate, List.intersperse])
     (by simp [runEntry, mp3CfgR, splitFileAtDot, newFileName, rsplitL, splitOnL,
       splitGo, stripLead, trimL, isRustWhitespace, List.intercalate,
       List.intersperse])⟩

/-- C6.  (1) On success, the returned count equals the total number of
renames performed in the call, nested recursive calls included (and, as
a `Nat`, it is non-negative by construction).  (2) The loop aggregates
by addition: the count for `e :: rest` is the count for `e` plus the
count for `rest`, and the logs concatenate. -/
theorem c6_count_aggregation :
    (∀ (cfg : Config) (rf : Bool) (es : List Entry) (log : RenameLog) (n : Nat),
        rename_files_swapped cfg rf es = (log, .ok n) → n = log.length) ∧
    (∀ (cfg : Config) (e : Entry) (rest : List Entry) (l₁ l₂ : RenameLog)
        (n₁ n₂ : Nat),
        runEntry cfg e = (l₁, .ok n₁) → runEntries cfg rest = (l₂, .ok n₂) →
        runEntries cfg (e :: rest) = (l₁ ++ l₂, .ok (n₁ + n₂))) := by
  constructor
  · intro cfg rf es log n h
    cases rf with
    | true => simp [rename_files_swapped] at h
    | false =>
      rw [rename_files_swapped, if_neg (by simp)] at h
      exact runEntries_count cfg es log n h
  · exact fun cfg e rest l₁ l₂ n₁ n₂ h₁ h₂ => runEntries_cons_ok h₁ h₂

/-- C6, witness: one top-level rename plus one rename inside a
subdirectory give count 2 = length of the rename log. -/
theorem c6_count_aggregation_witness :
    rename_files_swapped mp3CfgR false
      [.file "a-b.mp3".toList false, .dir false [.file "c-d.mp3".toList false]] =
      ([("a-b.mp3".toList, "b-a.mp3".toList),
        ("c-d.mp3".toList, "d-c.mp3".toList)], .ok 2) ∧
    (2 : Nat) = ([("a-b.mp3".toList, "b-a.mp3".toList),
        ("c-d.mp3".toList, "d-c.mp3".toList)] : RenameLog).length :=
  ⟨by simp [rename_files_swapped, runEntries, runEntry, mp3CfgR, splitFileAtDot,
      newFileName, rsplitL, splitOnL, splitGo, stripLead, trimL,
      isRustWhitespace, List.intercalate, List.intersperse],
   c6_count_aggregation.1 mp3CfgR false
     [.file "a-b.mp3".toList false, .dir false [.file "c-d.mp3".toList false]]
     [("a-b.mp3".toList, "b-a.mp3".toList),
      ("c-d.mp3".toList, "d-c.mp3".toList)] 2
     (by simp [rename_files_swapped, runEntries, runEntry, mp3CfgR,
       splitFileAtDot, newFileName, rsplitL, splitOnL, splitGo, stripLead,
       trimL, isRustWhitespace, List.intercalate, List.intersperse])⟩

/-- C7.  With recursion off, (1) the traversal behaves exactly as if
directory entries were not listed at all — nothing below the current
level is read, renamed, counted, or able to fail — and (2) a directory
entry contributes an empty log and count 0. -/
theorem c7_nonrecursive_boundary :
    (∀ (cfg : Config), cfg.recursive = false →
        ∀ es : List Entry,
          runEntries cfg es = runEntries cfg (es.filter isFileEntry)) ∧
    (∀ (cfg : Config) (rdf : Bool) (sub : List Entry), cfg.recursive = false →
        runEntry cfg (.dir rdf sub) = ([], .ok 0)) := by
  constructor
  · exact fun cfg h es => runEntries_nonrecursive cfg h es
  · intro cfg rdf sub h
    rw [runEntry_dir, h]
    simp

/-- C7, witness: non-recursively, a subdirectory containing a matching
file — and even with a failing `read_dir` — is ignored entirely; only
the top-level `"a-b.mp3"` is renamed and counted. -/
theorem c7_nonrecursive_boundary_witness :
    mp3Cfg.recursive = false ∧
    runEntries mp3Cfg [.dir true [.file "x-y.mp3".toList false],
        .file "a-b.mp3".toList false] =
      runEntries mp3Cfg ([.dir true [.file "x-y.mp3".toList false],
        .file "a-b.mp3".toList false].filter isFileEntry) ∧
    runEntries mp3Cfg [.dir true [.file "x-y.mp3".toList false],
        .file "a-b.mp3".toList false] =
      ([("a-b.mp3".toList, "b-a.mp3".toList)], .ok 1) :=
  ⟨by decide,
   c7_nonrecursive_boundary.1 mp3Cfg (by decide) _,
   by simp [runEntries, runEntry, mp3Cfg, splitFileAtDot, newFileName, rsplitL,
      splitOnL, splitGo, stripLead, trimL, isRustWhitespace, List.intercalate,
      List.intersperse]⟩

/-- C8.  A file whose extension is absent, or present but not an exact
(case-sensitive) member of the configured extension list, is silently
skipped: untouched, uncounted, and never an error — even if a rename of
it would have failed. -/
theorem c8_extension_filter (cfg : Config) (name : List Char) (rf : Bool)
    (h : (splitFileAtDot name).2 = none ∨
      ∃ e, (splitFileAtDot name).2 = some e ∧ cfg.extensions.contains e = false) :
    runEntry cfg (.file name rf) = ([], .ok 0) := by
  refine runEntry_skip_ext cfg name rf ?_
  intro e he
  rcases h with h0 | ⟨e', he', hc⟩
  · rw [h0] at he
    cases he
  · rw [he'] at he
    injection he with he
    subst he
    exact hc

/-- C8, witness: `"a.MP3"` has extension `"MP3"`, which does not match
`"mp3"` case-sensitively, so it is skipped; `"noext"` has no extension
and is skipped too. -/
theorem c8_extension_filter_witness :
    (splitFileAtDot "a.MP3".toList).2 = some "MP3".toList ∧
    mp3Cfg.extensions.contains "MP3".toList = false ∧
    runEntry mp3Cfg (.file "a.MP3".toList true) = ([], .ok 0) ∧
    (splitFileAtDot "noext".toList).2 = none ∧
    runEntry mp3Cfg (.file "noext".toList true) = ([], .ok 0) :=
  ⟨by decide, by decide,
   c8_extension_filter mp3Cfg "a.MP3".toList true
     (Or.inr ⟨"MP3".toList, by decide, by decide⟩),
   by decide,
   c8_extension_filter mp3Cfg "noext".toList true (Or.inl (by decide))⟩

/-- C9.  When only one `--separator` value is supplied, the join
separator defaults to the unescaped split separator; unescaping removes
every backslash, so the split separator used for matching contains
none.  Concretely, an escaped dash `"\-"` becomes `"-"` for both
separators. -/
theorem c9_default_join :
    (∀ s0 : List Char,
        computeSeps [s0] = some (replaceL s0 ['\\'] [], replaceL s0 ['\\'] [])) ∧
    (∀ s0 : List Char, ('\\' : Char) ∉ replaceL s0 ['\\'] []) ∧
    computeSeps ["\\-".toList] = some ("-".toList, "-".toList) :=
  ⟨fun _ => rfl, fun s0 => replaceL_sc_not_mem '\\' s0, by decide⟩

/-- C10.  A second `--separator` value is taken verbatim as the join
separator — backslashes are removed only from the first value — and on
every successful rename the join separator (hence any backslash in it)
appears literally between the two swapped pieces of the new name. -/
theorem c10_verbatim_join :
    (∀ (s0 s1 : List Char) (rest : List (List Char)),
        computeSeps (s0 :: s1 :: rest) = some (replaceL s0 ['\\'] [], s1)) ∧
    (∀ (old j pad stem r : List Char), newFileName old j pad stem = some r →
        ∃ f₀ f₁, r = f₀ ++ (pad ++ j ++ pad) ++ f₁) := by
  constructor
  · intro s0 s1 rest
    rfl
  · intro old j pad stem r h
    obtain ⟨f₀, f₁, -, hr⟩ := newFileName_eq_some h
    exact ⟨f₀, f₁, hr⟩

/-- C10, witness: with separators `"\-"` and `"\x"`, the join separator
keeps its backslash and appears verbatim in the renamed base
`"b\xa"`. -/
theorem c10_verbatim_join_witness :
    computeSeps ["\\-".toList, "\\x".toList] = some ("-".toList, "\\x".toList) ∧
    newFileName ['-'] "\\x".toList [] "a-b".toList = some "b\\xa".toList ∧
    ∃ f₀ f₁, "b\\xa".toList = f₀ ++ ([] ++ "\\x".toList ++ []) ++ f₁ :=
  ⟨by decide, by decide,
   c10_verbatim_join.2 ['-'] "\\x".toList [] "a-b".toList "b\\xa".toList
     (by decide)⟩

/-! ## Smoke tests of the embedding against the Rust semantics -/

example : rsplitL "a-b-c".toList "-".toList = ["c".toList, "b".toList, "a".toList] := by decide
example : rsplitL "aaa".toList "aa".toList = ["".toList, "a".toList] := by decide
example : rsplitL "a-".toList "-".toList = ["".toList, "a".toList] := by decide
example : splitOnL "abc".toList "".toList =
    ["".toList, "a".toList, "b".toList, "c".toList, "".toList] := by decide
example : trimL "  a b\t".toList = "a b".toList := by decide
example : splitFileAtDot "a.MP3".toList = ("a".toList, some "MP3".toList) := by decide
example : splitFileAtDot ".mp3".toList = (".mp3".toList, none) := by decide
example : splitFileAtDot "foo.tar.gz".toList = ("foo.tar".toList, some "gz".toList) := by decide
example : splitFileAtDot "foo".toList = ("foo".toList, none) := by decide
example : newFileName "-".toList "-".toList "".toList "song-title".toList =
    some "title-song".toList := by decide
example : newFileName "-".toList "-".toList " ".toList "song-title".toList =
    some "title - song".toList := by decide
example : newFileName "-".toList "-".toList "".toList "a-b-c".toList = none := by decide
example : replaceL "\\-".toList "\\".toList "".toList = "-".toList := by decide

end BatchRenamer
